import Mathlib

/-!
Verification of the benchmark program in `src/main.cpp` of
cache-coherence-protocol-bench.

The program is a single translation unit.  We give a shallow embedding:

* `Iterations` — the global iteration constant (line 11).
* `MemoryOrder` — the six enumerators of `std::memory_order` that the
  program names; `MemoryOrder.val` gives their underlying integer values.
* `GetMemoryOrderRepr` — the `switch` of lines 90–108, on the enumerators;
  `GetMemoryOrderReprRaw` models the same `switch` on the raw integer value
  of the scoped enum, with `none` standing for the `default:
  __builtin_unreachable()` branch.
* Counters are `int64_t` / `atomic_int64_t`; we model their values as `Int`
  with explicit two's-complement wraparound `int64Wrap` on every increment,
  so overflow behaviour is part of the model.
* Single-threaded increment loops (`RunThread` of the two baseline classes)
  are structural recursions on the iteration count.
* Multi-threaded runs over the shared counters are modelled by a
  linearization trace (`schedule`): a list of thread ids, one entry per
  increment, in the order the increments take effect.  Atomic `fetch_add`
  makes every increment take effect exactly once, so executing the schedule
  applies `int64Wrap (c + 1)` once per entry; a schedule is valid for `n`
  threads when each of the thread ids `0 … n-1` occurs exactly `Iterations`
  times (each worker performs exactly `Iterations` increments).
* The harness (`Benchmark::Run`, `Benchmark::RunWithThreads`, `main`) is
  modelled as a pure function producing the list of observable events
  (writes to standard output, flushes, thread spawns and joins) in program
  order; measured durations, which are nondeterministic, are parameters.
-/

/-- Iteration count constant from line 11 of main.cpp:
`constexpr const int Iterations = 500'000'000;`. -/
def Iterations : Nat := 500000000

/-- Enumerators of `std::memory_order` used by the program. -/
inductive MemoryOrder where
  | relaxed
  | consume
  | acquire
  | release
  | acq_rel
  | seq_cst
deriving DecidableEq, Repr

/-- Underlying integer value of each `std::memory_order` enumerator
(as fixed by the C++ standard library headers). -/
def MemoryOrder.val : MemoryOrder → Nat
  | .relaxed => 0
  | .consume => 1
  | .acquire => 2
  | .release => 3
  | .acq_rel => 4
  | .seq_cst => 5

/-- Embedding of `GetMemoryOrderRepr` (main.cpp lines 90–108) on the
enumerators: the six labelled `case` branches of the `switch`. -/
def GetMemoryOrderRepr : MemoryOrder → String
  | .relaxed => "relaxed"
  | .consume => "consume"
  | .acquire => "acquire"
  | .release => "release"
  | .acq_rel => "acq_rel"
  | .seq_cst => "seq_cst"

/-- Embedding of the same `switch` on the raw integer value of the scoped
enum `std::memory_order`.  The `default: __builtin_unreachable();` branch is
modelled as `none`: reaching it is undefined behaviour, so a call is safe
exactly when the result is `some`. -/
def GetMemoryOrderReprRaw (order : Nat) : Option String :=
  if order = 0 then some "relaxed"
  else if order = 1 then some "consume"
  else if order = 2 then some "acquire"
  else if order = 3 then some "release"
  else if order = 4 then some "acq_rel"
  else if order = 5 then some "seq_cst"
  else none

/-- Two's-complement wraparound of a mathematical integer into the range of
`int64_t`, i.e. `[-2^63, 2^63)`. -/
def int64Wrap (x : Int) : Int := (x + 2 ^ 63) % 2 ^ 64 - 2 ^ 63

/-- Value effect of `counter.fetch_add(1, order)` on an `atomic_int64_t`
holding `c`: the stored value becomes `c + 1` with `int64_t` wraparound.
The memory-order argument constrains surrounding-memory visibility only; it
does not change the read-modify-write's effect on the counter itself. -/
def fetchAdd (order : MemoryOrder) (c : Int) : Int :=
  let _ := order
  int64Wrap (c + 1)

/-- Value effect of `++counter` on a (volatile) `int64_t` holding `c`,
assuming the increment takes effect (single-threaded, or modelling all
increments of a racy run as taking effect). -/
def nonAtomicIncrement (c : Int) : Int := int64Wrap (c + 1)

/-- Loop of `NonAtomicBaseline::RunThread` (main.cpp lines 60–65):
`for (auto i = 0; i < Iterations; ++i) ++counter;` with `counter` a fresh
local `volatile int64_t`.  First argument: remaining iterations. -/
def nonAtomicIncrLoop : Nat → Int → Int
  | 0, c => c
  | i + 1, c => nonAtomicIncrLoop i (nonAtomicIncrement c)

/-- Loop of `AtomicBaseline<Order>::RunThread` (main.cpp lines 121–126):
`for (auto i = 0; i < Iterations; ++i) counter.fetch_add(1, Order);` with
`counter` a fresh local `std::atomic_int64_t` initialised to 0. -/
def atomicIncrLoop (order : MemoryOrder) : Nat → Int → Int
  | 0, c => c
  | i + 1, c => atomicIncrLoop order i (fetchAdd order c)

namespace NonAtomicBaseline

/-- Final value of the fresh local counter of
`NonAtomicBaseline::RunThread`: the counter starts at 0 and is incremented
`Iterations` times. -/
def RunThread : Int := nonAtomicIncrLoop Iterations 0

end NonAtomicBaseline

namespace AtomicBaseline

/-- Final value of the fresh local atomic counter of
`AtomicBaseline<Order>::RunThread`: the counter starts at 0 and receives
`Iterations` many `fetch_add(1, Order)` operations. -/
def RunThread (order : MemoryOrder) : Int := atomicIncrLoop order Iterations 0

end AtomicBaseline

/-- Execution of a linearization trace over a shared `atomic_int64_t`
counter: each entry of the schedule is one `fetch_add(1, order)` by the
recorded thread, applied in trace order (atomicity of `fetch_add` means the
read-modify-write operations form such a total order on the counter and
none is lost, under every memory order including `relaxed`). -/
def execSchedule (order : MemoryOrder) : List Nat → Int → Int
  | [], c => c
  | _ :: rest, c => execSchedule order rest (fetchAdd order c)

/-- Execution of a linearization trace over the shared `volatile int64_t`
counter of `NonAtomicBenchmark`, modelling every increment as taking
effect (the idealised all-increments-applied reading of the racy loop). -/
def execScheduleNonAtomic : List Nat → Int → Int
  | [], c => c
  | _ :: rest, c => execScheduleNonAtomic rest (nonAtomicIncrement c)

/-- A schedule is a valid trace of one trial with `n` worker threads when
every recorded thread id is below `n` and each of the `n` workers performs
exactly `Iterations` increments. -/
def IsValidSchedule (n : Nat) (sched : List Nat) : Prop :=
  (∀ t ∈ sched, t < n) ∧ ∀ t < n, sched.count t = Iterations

theorem int64Wrap_eq_self {x : Int} (h0 : 0 ≤ x) (h : x < 2 ^ 63) :
    int64Wrap x = x := by
  unfold int64Wrap
  rw [Int.emod_eq_of_lt (by omega) (by omega)]
  omega

theorem nonAtomicIncrLoop_eq (n : Nat) :
    ∀ c : Int, 0 ≤ c → c + n < 2 ^ 63 → nonAtomicIncrLoop n c = c + n := by
  induction n with
  | zero => intro c _ _; simp [nonAtomicIncrLoop]
  | succ k ih =>
    intro c h0 h
    have hw : nonAtomicIncrement c = c + 1 := by
      unfold nonAtomicIncrement
      exact int64Wrap_eq_self (by omega) (by omega)
    rw [nonAtomicIncrLoop, hw, ih (c + 1) (by omega) (by omega)]
    omega

theorem atomicIncrLoop_eq (order : MemoryOrder) (n : Nat) :
    ∀ c : Int, 0 ≤ c → c + n < 2 ^ 63 → atomicIncrLoop order n c = c + n := by
  induction n with
  | zero => intro c _ _; simp [atomicIncrLoop]
  | succ k ih =>
    intro c h0 h
    have hw : fetchAdd order c = c + 1 := by
      unfold fetchAdd
      exact int64Wrap_eq_self (by omega) (by omega)
    rw [atomicIncrLoop, hw, ih (c + 1) (by omega) (by omega)]
    omega

theorem Iterations_lt : (Iterations : Int) < 2 ^ 63 := by decide

theorem execSchedule_eq (order : MemoryOrder) :
    ∀ (sched : List Nat) (c : Int), 0 ≤ c → c + sched.length < 2 ^ 63 →
      execSchedule order sched c = c + sched.length := by
  intro sched
  induction sched with
  | nil => intro c _ _; simp [execSchedule]
  | cons a rest ih =>
    intro c h0 h
    have hlen : (List.length (a :: rest) : Int) = rest.length + 1 := by
      push_cast [List.length_cons]; ring
    have hw : fetchAdd order c = c + 1 := by
      unfold fetchAdd
      exact int64Wrap_eq_self (by omega) (by omega)
    rw [execSchedule, hw, ih (c + 1) (by omega) (by omega)]
    omega

theorem execScheduleNonAtomic_eq :
    ∀ (sched : List Nat) (c : Int), 0 ≤ c → c + sched.length < 2 ^ 63 →
      execScheduleNonAtomic sched c = c + sched.length := by
  intro sched
  induction sched with
  | nil => intro c _ _; simp [execScheduleNonAtomic]
  | cons a rest ih =>
    intro c h0 h
    have hlen : (List.length (a :: rest) : Int) = rest.length + 1 := by
      push_cast [List.length_cons]; ring
    have hw : nonAtomicIncrement c = c + 1 := by
      unfold nonAtomicIncrement
      exact int64Wrap_eq_self (by omega) (by omega)
    rw [execScheduleNonAtomic, hw, ih (c + 1) (by omega) (by omega)]
    omega

theorem length_eq_sum_count (n : Nat) :
    ∀ l : List Nat, (∀ t ∈ l, t < n) →
      l.length = ∑ t in Finset.range n, l.count t := by
  intro l
  induction l with
  | nil => simp
  | cons a l ih =>
    intro h
    have ha : a < n := h a (by simp)
    have hl : ∀ t ∈ l, t < n := fun t ht => h t (by simp [ht])
    have hcount : ∀ t, (a :: l).count t = l.count t + if a = t then 1 else 0 := by
      intro t
      rw [List.count_cons]
      simp [beq_iff_eq]
    simp only [List.length_cons, hcount, Finset.sum_add_distrib, ← ih hl]
    rw [Finset.sum_ite_eq]
    simp [Finset.mem_range.mpr ha]

theorem IsValidSchedule.length_eq {n : Nat} {sched : List Nat}
    (h : IsValidSchedule n sched) : sched.length = n * Iterations := by
  rw [length_eq_sum_count n sched h.1]
  rw [Finset.sum_congr rfl (fun t ht => h.2 t (Finset.mem_range.mp ht))]
  simp [Finset.sum_const, Finset.card_range, Nat.smul_one_eq_cast]

namespace NonAtomicBenchmark

/-- Initial value of `NonAtomicBenchmark::_counter`, set by the constructor
(main.cpp lines 70–72): `_counter(0)`. -/
def initCounter : Int := 0

end NonAtomicBenchmark

namespace AtomicBenchmark

/-- Initial value of `AtomicBenchmark<Order>::_counter`, set by the
constructor (main.cpp lines 132–134): `_counter(0)`. -/
def initCounter : Int := 0

end AtomicBenchmark

/-- Counter evolution across the successive trials of one
`AtomicBenchmark<Order>` sweep: each trial's schedule is executed on the
counter value left by the previous trial (`RunWithThreads` never writes
`_counter` outside the workers' `fetch_add`s, so nothing resets it). -/
def runTrials (order : MemoryOrder) : List (List Nat) → Int → Int
  | [], c => c
  | s :: rest, c => runTrials order rest (execSchedule order s c)

/-- Counter evolution across the successive trials of one
`NonAtomicBenchmark` sweep, modelling all increments as taking effect. -/
def runTrialsNonAtomic : List (List Nat) → Int → Int
  | [], c => c
  | s :: rest, c => runTrialsNonAtomic rest (execScheduleNonAtomic s c)

/-- A list of schedules is a valid sweep up to `maxNumThreads` when there is
one schedule per trial, and the trial at position `k` (thread count `k + 1`)
has a valid schedule for `k + 1` worker threads. -/
def IsValidSweep (maxNumThreads : Nat) (scheds : List (List Nat)) : Prop :=
  scheds.length = maxNumThreads ∧
  ∀ k : Fin scheds.length, IsValidSchedule (k.1 + 1) (scheds.get k)

theorem runTrials_eq (order : MemoryOrder) :
    ∀ (scheds : List (List Nat)) (c : Int), 0 ≤ c →
      c + (scheds.map List.length).sum < 2 ^ 63 →
      runTrials order scheds c = c + (scheds.map List.length).sum := by
  intro scheds
  induction scheds with
  | nil => intro c _ _; simp [runTrials]
  | cons s rest ih =>
    intro c h0 h
    rw [List.map_cons, List.sum_cons, Nat.cast_add] at h ⊢
    have hstep : execSchedule order s c = c + s.length :=
      execSchedule_eq order s c h0 (by omega)
    rw [runTrials, hstep, ih (c + s.length) (by omega) (by omega)]
    ring

theorem runTrialsNonAtomic_eq :
    ∀ (scheds : List (List Nat)) (c : Int), 0 ≤ c →
      c + (scheds.map List.length).sum < 2 ^ 63 →
      runTrialsNonAtomic scheds c = c + (scheds.map List.length).sum := by
  intro scheds
  induction scheds with
  | nil => intro c _ _; simp [runTrialsNonAtomic]
  | cons s rest ih =>
    intro c h0 h
    rw [List.map_cons, List.sum_cons, Nat.cast_add] at h ⊢
    have hstep : execScheduleNonAtomic s c = c + s.length :=
      execScheduleNonAtomic_eq s c h0 (by omega)
    rw [runTrialsNonAtomic, hstep, ih (c + s.length) (by omega) (by omega)]
    ring

theorem IsValidSweep.sum_lengths {maxNumThreads : Nat} {scheds : List (List Nat)}
    (h : IsValidSweep maxNumThreads scheds) :
    (scheds.map List.length).sum
      = ((List.range maxNumThreads).map (fun k => (k + 1) * Iterations)).sum := by
  have hmap : scheds.map List.length
      = (List.range maxNumThreads).map (fun k => (k + 1) * Iterations) := by
    apply List.ext_getElem
    · simp [h.1]
    · intro i h1 h2
      have hi : i < scheds.length := by simpa using h1
      have hvalid := h.2 ⟨i, hi⟩
      simp only [List.get_eq_getElem] at hvalid
      simp only [List.getElem_map, List.getElem_range]
      exact hvalid.length_eq
  rw [hmap]

theorem gauss_sum (m : Nat) :
    2 * ((List.range m).map (fun k => (k + 1) * Iterations)).sum
      = Iterations * m * (m + 1) := by
  induction m with
  | zero => simp
  | succ k ih =>
    rw [List.range_succ, List.map_append, List.sum_append]
    calc 2 * ((((List.range k).map (fun j => (j + 1) * Iterations)).sum)
            + ([k].map (fun j => (j + 1) * Iterations)).sum)
        = 2 * ((List.range k).map (fun j => (j + 1) * Iterations)).sum
          + 2 * ((k + 1) * Iterations) := by simp; ring
      _ = Iterations * k * (k + 1) + 2 * ((k + 1) * Iterations) := by rw [ih]
      _ = Iterations * (k + 1) * (k + 1 + 1) := by ring

/-- C1: for every AtomicShared(order) benchmark run with `n` worker threads,
each worker performing `Iterations` (500,000,000) `fetch_add(1, order)`
operations on the single shared atomic counter — i.e. for every
linearization trace in which each of the `n` workers contributes exactly
`Iterations` increments — the shared counter's value after all workers have
joined equals exactly `n * Iterations`, for every one of the six memory
orders.  The side condition keeps the exact total inside `int64_t`; it holds
for every thread count the program ever uses. -/
theorem atomicShared_no_lost_updates (order : MemoryOrder) (n : Nat)
    (sched : List Nat) (hv : IsValidSchedule n sched)
    (hb : n * Iterations < 2 ^ 63) :
    execSchedule order sched 0 = ((n * Iterations : Nat) : Int) := by
  have hl : sched.length = n * Iterations := hv.length_eq
  have hrun : execSchedule order sched 0 = 0 + sched.length :=
    execSchedule_eq order sched 0 le_rfl (by rw [hl]; omega)
  rw [hrun, hl]
  omega

/-- Witness for C1: two workers, the linearization in which worker 0's
500,000,000 increments all precede worker 1's; the counter ends at
exactly `2 * Iterations`. -/
theorem atomicShared_no_lost_updates_witness :
    IsValidSchedule 2 (List.replicate Iterations 0 ++ List.replicate Iterations 1) ∧
    2 * Iterations < 2 ^ 63 ∧
    execSchedule MemoryOrder.seq_cst
      (List.replicate Iterations 0 ++ List.replicate Iterations 1) 0
      = ((2 * Iterations : Nat) : Int) := by
  have hv : IsValidSchedule 2
      (List.replicate Iterations 0 ++ List.replicate Iterations 1) := by
    constructor
    · intro t ht
      have h2 : t = 0 ∨ t = 1 := by
        rcases List.mem_append.mp ht with h | h
        · exact Or.inl (List.eq_of_mem_replicate h)
        · exact Or.inr (List.eq_of_mem_replicate h)
      omega
    · intro t ht
      interval_cases t <;> simp [List.count_append, List.count_replicate]
  exact ⟨hv, by norm_num [Iterations],
    atomicShared_no_lost_updates MemoryOrder.seq_cst 2 _ hv
      (by norm_num [Iterations])⟩

/-- C2: for every private (baseline) variant — NonAtomicPrivate and
AtomicPrivate(order) for each of the six orders — the worker's fresh local
counter starts at 0 (it is allocated inside `RunThread`, once per worker
invocation) and after the increment loop completes it holds exactly
`Iterations` = 500,000,000. -/
theorem privateCounter_final_value :
    Iterations = 500000000 ∧
    NonAtomicBaseline.RunThread = (Iterations : Int) ∧
    ∀ order : MemoryOrder, AtomicBaseline.RunThread order = (Iterations : Int) := by
  have hI := Iterations_lt
  refine ⟨rfl, ?_, ?_⟩
  · unfold NonAtomicBaseline.RunThread
    rw [nonAtomicIncrLoop_eq Iterations 0 le_rfl (by omega)]
    omega
  · intro order
    unfold AtomicBaseline.RunThread
    rw [atomicIncrLoop_eq order Iterations 0 le_rfl (by omega)]
    omega

/-- C5: for every Shared (non-baseline) benchmark, the shared counter is
initialised to 0 at construction and never reset between successive
thread-count trials, so over a full `run(maxNumThreads)` sweep — trial `k`
contributing `k * Iterations` increments, all modelled as taking effect —
the counter ends at `Iterations * maxNumThreads * (maxNumThreads + 1) / 2`.
The side condition keeps the total inside `int64_t`; it holds for the
hardcoded sweep limit 10. -/
theorem sharedCounter_accumulates (order : MemoryOrder) (maxNumThreads : Nat)
    (scheds : List (List Nat)) (hv : IsValidSweep maxNumThreads scheds)
    (hb : Iterations * maxNumThreads * (maxNumThreads + 1) < 2 ^ 64) :
    AtomicBenchmark.initCounter = 0 ∧
    NonAtomicBenchmark.initCounter = 0 ∧
    runTrials order scheds AtomicBenchmark.initCounter
      = ((Iterations * maxNumThreads * (maxNumThreads + 1) / 2 : Nat) : Int) ∧
    runTrialsNonAtomic scheds NonAtomicBenchmark.initCounter
      = ((Iterations * maxNumThreads * (maxNumThreads + 1) / 2 : Nat) : Int) := by
  have h2 : 2 * (scheds.map List.length).sum
      = Iterations * maxNumThreads * (maxNumThreads + 1) := by
    rw [hv.sum_lengths]; exact gauss_sum maxNumThreads
  have hdv : Iterations * maxNumThreads * (maxNumThreads + 1) / 2
      = (scheds.map List.length).sum :=
    Nat.div_eq_of_eq_mul_left (by norm_num) (by omega)
  have hbound : (0 : Int) + (scheds.map List.length).sum < 2 ^ 63 := by
    have hlt : (scheds.map List.length).sum < 2 ^ 63 := by omega
    omega
  refine ⟨rfl, rfl, ?_, ?_⟩
  · show runTrials order scheds 0 = _
    rw [runTrials_eq order scheds 0 le_rfl hbound, hdv]
    omega
  · show runTrialsNonAtomic scheds 0 = _
    rw [runTrialsNonAtomic_eq scheds 0 le_rfl hbound, hdv]
    omega

/-- Witness for C5: a sweep up to 2 threads (trial 1: one worker; trial 2:
two workers, worker 0 first); the shared counter accumulates to
`Iterations * 2 * 3 / 2 = 3 * Iterations`. -/
theorem sharedCounter_accumulates_witness :
    IsValidSweep 2 [List.replicate Iterations 0,
      List.replicate Iterations 0 ++ List.replicate Iterations 1] ∧
    Iterations * 2 * (2 + 1) < 2 ^ 64 ∧
    runTrials MemoryOrder.relaxed
      [List.replicate Iterations 0,
        List.replicate Iterations 0 ++ List.replicate Iterations 1]
      AtomicBenchmark.initCounter
      = ((Iterations * 2 * (2 + 1) / 2 : Nat) : Int) := by
  have hv : IsValidSweep 2 [List.replicate Iterations 0,
      List.replicate Iterations 0 ++ List.replicate Iterations 1] := by
    constructor
    · rfl
    · intro k
      fin_cases k
      · show IsValidSchedule 1 (List.replicate Iterations 0)
        constructor
        · intro t ht
          have h2 := List.eq_of_mem_replicate ht
          omega
        · intro t ht
          interval_cases t
          simp [List.count_replicate]
      · show IsValidSchedule 2
          (List.replicate Iterations 0 ++ List.replicate Iterations 1)
        constructor
        · intro t ht
          have h2 : t = 0 ∨ t = 1 := by
            rcases List.mem_append.mp ht with h | h
            · exact Or.inl (List.eq_of_mem_replicate h)
            · exact Or.inr (List.eq_of_mem_replicate h)
          omega
        · intro t ht
          interval_cases t <;> simp [List.count_append, List.count_replicate]
  exact ⟨hv, by norm_num [Iterations],
    (sharedCounter_accumulates MemoryOrder.relaxed 2 _ hv
      (by norm_num [Iterations])).2.2.1⟩

/-- Benchmark variants the program defines: the two non-atomic classes and
the two `std::memory_order`-templated classes (main.cpp lines 53–153). -/
inductive BenchmarkVariant where
  | nonAtomicBaseline
  | nonAtomicBenchmark
  | atomicBaseline (order : MemoryOrder)
  | atomicBenchmark (order : MemoryOrder)
deriving DecidableEq, Repr

/-- Embedding of the virtual `GetName` overrides (main.cpp lines 56–58,
76–78, 113–119, 137–143).  The atomic variants build the name by appending
`GetMemoryOrderRepr Order` and a closing parenthesis to the base name. -/
def GetName : BenchmarkVariant → String
  | .nonAtomicBaseline => "Non-atomic Baseline"
  | .nonAtomicBenchmark => "Non-atomic Benchmark"
  | .atomicBaseline order => "Atomic Baseline (" ++ GetMemoryOrderRepr order ++ ")"
  | .atomicBenchmark order => "Atomic Benchmark (" ++ GetMemoryOrderRepr order ++ ")"

/-- Observable actions of the orchestrating thread, in program order:
writes to standard output, flushes of standard output, thread spawns
(`threads.emplace_back`, recording which benchmark's `RunThread` the worker
invokes and the worker's index) and thread joins (`t.join()`). -/
inductive Event where
  | printOut (s : String)
  | flushOut
  | spawnThread (b : BenchmarkVariant) (tid : Nat)
  | joinThread (tid : Nat)
deriving DecidableEq, Repr

/-- Test for a spawn event. -/
def isSpawnEvent : Event → Bool
  | .spawnThread _ _ => true
  | _ => false

/-- Test for a join event. -/
def isJoinEvent : Event → Bool
  | .joinThread _ => true
  | _ => false

/-- Characters an event contributes to standard output. -/
def eventOutput : Event → String
  | .printOut s => s
  | _ => ""

/-- Characters written to standard output over a list of events. -/
def outputChars (l : List Event) : List Char :=
  l.flatMap fun e => (eventOutput e).data

/-- Standard-output contents produced by a list of events. -/
def outputOf (l : List Event) : String := ⟨outputChars l⟩

namespace Benchmark

/-- One step of the spawn loop (main.cpp lines 32–34): the vector of
spawned workers grows by one and a spawn event is emitted; the worker
invokes `this->RunThread()`, recorded by tagging the event with the
benchmark variant. -/
def spawnStep (b : BenchmarkVariant) (acc : List Nat × List Event) (i : Nat) :
    List Nat × List Event :=
  (acc.1 ++ [i], acc.2 ++ [Event.spawnThread b i])

/-- Embedding of `Benchmark::RunWithThreads` (main.cpp lines 23–44) as its
event trace.  `ms` is the measured whole-millisecond duration, a parameter
because wall-clock timing is nondeterministic.  Program order: print the
four prefix pieces, flush, spawn `numThreads` workers, join every spawned
worker, then print the duration, the literal " ms" and the newline of
`std::endl`, which also flushes. -/
def RunWithThreads (b : BenchmarkVariant) (numThreads ms : Nat) : List Event :=
  let spawned := (List.range numThreads).foldl (spawnStep b) ([], [])
  [Event.printOut (GetName b), Event.printOut ": numThreads = ",
    Event.printOut (Nat.repr numThreads), Event.printOut " ... ", Event.flushOut]
  ++ spawned.2
  ++ spawned.1.map Event.joinThread
  ++ [Event.printOut (Nat.repr ms), Event.printOut " ms",
      Event.printOut "\n", Event.flushOut]

/-- Embedding of the loop of `Benchmark::Run` (main.cpp lines 17–21):
`for (size_t threads = 1; threads <= maxNumThreads; ++threads)
RunWithThreads(threads);`, returning the list of trial traces in execution
order (each trial's events are contiguous: a trial finishes, all workers
joined, before the next starts). -/
def RunLoop (b : BenchmarkVariant) (dur : Nat → Nat)
    (threads maxNumThreads : Nat) : List (List Event) :=
  if threads ≤ maxNumThreads then
    RunWithThreads b threads (dur threads) :: RunLoop b dur (threads + 1) maxNumThreads
  else []
termination_by maxNumThreads + 1 - threads
decreasing_by omega

/-- Embedding of `Benchmark::Run` (main.cpp lines 17–21). -/
def Run (b : BenchmarkVariant) (dur : Nat → Nat) (maxNumThreads : Nat) :
    List (List Event) :=
  RunLoop b dur 1 maxNumThreads

end Benchmark

theorem spawnFold_eq (b : BenchmarkVariant) (l : List Nat) :
    ∀ acc1 acc2, l.foldl (Benchmark.spawnStep b) (acc1, acc2)
      = (acc1 ++ l, acc2 ++ l.map (Event.spawnThread b)) := by
  induction l with
  | nil => intro acc1 acc2; simp
  | cons a l ih =>
    intro acc1 acc2
    rw [List.foldl_cons]
    show List.foldl (Benchmark.spawnStep b) (acc1 ++ [a], acc2 ++ [Event.spawnThread b a]) l = _
    rw [ih]
    simp

theorem runWithThreads_eq (b : BenchmarkVariant) (n ms : Nat) :
    Benchmark.RunWithThreads b n ms =
      [Event.printOut (GetName b), Event.printOut ": numThreads = ",
        Event.printOut (Nat.repr n), Event.printOut " ... ", Event.flushOut]
      ++ (List.range n).map (Event.spawnThread b)
      ++ (List.range n).map Event.joinThread
      ++ [Event.printOut (Nat.repr ms), Event.printOut " ms",
          Event.printOut "\n", Event.flushOut] := by
  unfold Benchmark.RunWithThreads
  rw [spawnFold_eq]
  simp

theorem runLoop_eq (b : BenchmarkVariant) (dur : Nat → Nat) :
    ∀ (n threads maxNumThreads : Nat), maxNumThreads + 1 - threads = n →
      Benchmark.RunLoop b dur threads maxNumThreads
        = (List.range' threads n).map
            (fun k => Benchmark.RunWithThreads b k (dur k)) := by
  intro n
  induction n with
  | zero =>
    intro t m h
    rw [Benchmark.RunLoop, if_neg (by omega)]
    simp
  | succ k ih =>
    intro t m h
    rw [Benchmark.RunLoop, if_pos (by omega), List.range'_succ, List.map_cons,
      ih (t + 1) m (by omega)]

theorem outputChars_append (l1 l2 : List Event) :
    outputChars (l1 ++ l2) = outputChars l1 ++ outputChars l2 := by
  simp [outputChars]

theorem isSpawnEvent_spawn (b : BenchmarkVariant) (i : Nat) :
    isSpawnEvent (Event.spawnThread b i) = true := rfl

theorem isSpawnEvent_join (i : Nat) :
    isSpawnEvent (Event.joinThread i) = false := rfl

theorem isJoinEvent_spawn (b : BenchmarkVariant) (i : Nat) :
    isJoinEvent (Event.spawnThread b i) = false := rfl

theorem isJoinEvent_join (i : Nat) :
    isJoinEvent (Event.joinThread i) = true := rfl

/-- C3: for every benchmark and every requested thread count `n`,
`RunWithThreads(n)` emits exactly `n` spawn events, every spawn runs the
same benchmark's `RunThread`, it emits exactly `n` join events, and all `n`
joins occur strictly before the four trailing report events (duration
print, " ms", newline, flush) — so all workers are joined before the
elapsed time is reported and the call returns. -/
theorem runWithThreads_spawns_joins_all (b : BenchmarkVariant) (n ms : Nat) :
    ((Benchmark.RunWithThreads b n ms).filter isSpawnEvent
      = (List.range n).map (Event.spawnThread b)) ∧
    ((Benchmark.RunWithThreads b n ms).countP isSpawnEvent = n) ∧
    ((Benchmark.RunWithThreads b n ms).countP isJoinEvent = n) ∧
    (((Benchmark.RunWithThreads b n ms).take
        ((Benchmark.RunWithThreads b n ms).length - 4)).countP isJoinEvent = n) ∧
    (((Benchmark.RunWithThreads b n ms).drop
        ((Benchmark.RunWithThreads b n ms).length - 4)).countP isJoinEvent = 0) := by
  have hE := runWithThreads_eq b n ms
  have hlen4 : (Benchmark.RunWithThreads b n ms).length - 4
      = ([Event.printOut (GetName b), Event.printOut ": numThreads = ",
          Event.printOut (Nat.repr n), Event.printOut " ... ", Event.flushOut]
        ++ (List.range n).map (Event.spawnThread b)
        ++ (List.range n).map Event.joinThread).length := by
    rw [hE]
    simp only [List.length_append, List.length_map, List.length_range,
      List.length_cons, List.length_nil]
    omega
  have htake : (Benchmark.RunWithThreads b n ms).take
      ((Benchmark.RunWithThreads b n ms).length - 4)
      = [Event.printOut (GetName b), Event.printOut ": numThreads = ",
          Event.printOut (Nat.repr n), Event.printOut " ... ", Event.flushOut]
        ++ (List.range n).map (Event.spawnThread b)
        ++ (List.range n).map Event.joinThread := by
    rw [hlen4, hE, List.take_left]
  have hdrop : (Benchmark.RunWithThreads b n ms).drop
      ((Benchmark.RunWithThreads b n ms).length - 4)
      = [Event.printOut (Nat.repr ms), Event.printOut " ms",
          Event.printOut "\n", Event.flushOut] := by
    rw [hlen4, hE, List.drop_left]
  have hfilter : (Benchmark.RunWithThreads b n ms).filter isSpawnEvent
      = (List.range n).map (Event.spawnThread b) := by
    rw [hE]
    simp [List.filter_append, List.filter_map, Function.comp_def,
      isSpawnEvent_spawn, isSpawnEvent_join, isSpawnEvent, List.filter_cons]
  refine ⟨hfilter, ?_, ?_, ?_, ?_⟩
  · rw [List.countP_eq_length_filter, hfilter]
    simp
  · rw [hE]
    simp [List.countP_append, List.countP_map, Function.comp_def,
      isJoinEvent_spawn, isJoinEvent_join, isJoinEvent, List.countP_cons]
  · rw [htake]
    simp [List.countP_append, List.countP_map, Function.comp_def,
      isJoinEvent_spawn, isJoinEvent_join, isJoinEvent, List.countP_cons]
  · rw [hdrop]
    simp [isJoinEvent, List.countP_cons]

/-- C4: for every benchmark, `Run(maxNumThreads)` performs
`RunWithThreads(k)` exactly once for each `k = 1 … maxNumThreads`, in
increasing order of `k`; the trials appear as contiguous, consecutive
segments of the event stream (one trial is fully complete before the next
starts); and `Run(1)` performs exactly one trial. -/
theorem run_trials_in_increasing_order (b : BenchmarkVariant) (dur : Nat → Nat)
    (maxNumThreads : Nat) :
    (Benchmark.Run b dur maxNumThreads
      = (List.range' 1 maxNumThreads).map
          fun k => Benchmark.RunWithThreads b k (dur k)) ∧
    (Benchmark.Run b dur maxNumThreads).length = maxNumThreads ∧
    (Benchmark.Run b dur 1).length = 1 := by
  have h : Benchmark.Run b dur maxNumThreads
      = (List.range' 1 maxNumThreads).map
          (fun k => Benchmark.RunWithThreads b k (dur k)) :=
    runLoop_eq b dur maxNumThreads 1 maxNumThreads (by omega)
  have h1 : Benchmark.Run b dur 1
      = (List.range' 1 1).map (fun k => Benchmark.RunWithThreads b k (dur k)) :=
    runLoop_eq b dur 1 1 1 (by omega)
  refine ⟨h, ?_, ?_⟩
  · rw [h]; simp [List.length_range']
  · rw [h1]; simp

/-- Embedding of the `MEMORY_ORDER_LIST` macro (main.cpp lines 166–172):
the six memory orders, in expansion order. -/
def MEMORY_ORDER_LIST : List MemoryOrder :=
  [.relaxed, .consume, .acquire, .release, .acq_rel, .seq_cst]

/-- Benchmark instances `main` pushes into its vector, in push order
(main.cpp lines 157–185): the two non-atomic variants, then one
`AtomicBaseline` per order of `MEMORY_ORDER_LIST`, then one
`AtomicBenchmark` per order of `MEMORY_ORDER_LIST`. -/
def mainBenchmarks : List BenchmarkVariant :=
  [BenchmarkVariant.nonAtomicBaseline, BenchmarkVariant.nonAtomicBenchmark]
    ++ MEMORY_ORDER_LIST.map BenchmarkVariant.atomicBaseline
    ++ MEMORY_ORDER_LIST.map BenchmarkVariant.atomicBenchmark

/-- Trial traces of the whole program: the loop of main.cpp lines 187–189
runs `b->Run(10)` for each benchmark in vector order.  `dur` supplies the
measured duration of each (benchmark, thread count) trial. -/
def mainTrials (dur : BenchmarkVariant → Nat → Nat) : List (List Event) :=
  mainBenchmarks.flatMap fun b => Benchmark.Run b (dur b) 10

/-- Event stream of the whole program. -/
def mainEvents (dur : BenchmarkVariant → Nat → Nat) : List Event :=
  (mainTrials dur).flatten

/-- Standard-output contents of the whole program. -/
def mainOutput (dur : BenchmarkVariant → Nat → Nat) : String :=
  outputOf (mainEvents dur)

/-- Exit status of `main` (main.cpp line 191): `return 0;`. -/
def mainExitCode : Int := 0

/-- C7: `main` constructs exactly 14 benchmark instances in a fixed order —
the two non-atomic variants (baseline then shared), then the six
`AtomicBaseline`s in the order relaxed, consume, acquire, release, acq_rel,
seq_cst, then the six `AtomicBenchmark`s in the same order — and the
program's trial sequence is the concatenation of each benchmark's sweep in
that order (fully sequential: each benchmark's trials are contiguous). -/
theorem main_constructs_benchmarks_in_order :
    mainBenchmarks
      = [BenchmarkVariant.nonAtomicBaseline, BenchmarkVariant.nonAtomicBenchmark,
         BenchmarkVariant.atomicBaseline MemoryOrder.relaxed,
         BenchmarkVariant.atomicBaseline MemoryOrder.consume,
         BenchmarkVariant.atomicBaseline MemoryOrder.acquire,
         BenchmarkVariant.atomicBaseline MemoryOrder.release,
         BenchmarkVariant.atomicBaseline MemoryOrder.acq_rel,
         BenchmarkVariant.atomicBaseline MemoryOrder.seq_cst,
         BenchmarkVariant.atomicBenchmark MemoryOrder.relaxed,
         BenchmarkVariant.atomicBenchmark MemoryOrder.consume,
         BenchmarkVariant.atomicBenchmark MemoryOrder.acquire,
         BenchmarkVariant.atomicBenchmark MemoryOrder.release,
         BenchmarkVariant.atomicBenchmark MemoryOrder.acq_rel,
         BenchmarkVariant.atomicBenchmark MemoryOrder.seq_cst] ∧
    mainBenchmarks.length = 14 ∧
    mainBenchmarks.take 2
      = [BenchmarkVariant.nonAtomicBaseline, BenchmarkVariant.nonAtomicBenchmark] ∧
    (mainBenchmarks.drop 2).take 6
      = MEMORY_ORDER_LIST.map BenchmarkVariant.atomicBaseline ∧
    mainBenchmarks.drop 8
      = MEMORY_ORDER_LIST.map BenchmarkVariant.atomicBenchmark ∧
    ∀ dur, mainTrials dur
      = ((mainBenchmarks.map fun b => Benchmark.Run b (dur b) 10)).flatten := by
  exact ⟨rfl, rfl, rfl, rfl, rfl, fun dur => rfl⟩

/-- C6: the 14 constructed benchmark variants have pairwise-distinct names;
the 12 atomic variants' names have the format
`"<base-name> (<order-name>)"`, and the order label is always one of the
six strings relaxed, consume, acquire, release, acq_rel, seq_cst,
determined by the variant's memory-order parameter. -/
theorem benchmark_names_distinct_and_formatted :
    (mainBenchmarks.map GetName).Nodup ∧
    (∀ order, GetName (BenchmarkVariant.atomicBaseline order)
      = "Atomic Baseline (" ++ GetMemoryOrderRepr order ++ ")") ∧
    (∀ order, GetName (BenchmarkVariant.atomicBenchmark order)
      = "Atomic Benchmark (" ++ GetMemoryOrderRepr order ++ ")") ∧
    (∀ order, GetMemoryOrderRepr order
      ∈ ["relaxed", "consume", "acquire", "release", "acq_rel", "seq_cst"]) := by
  refine ⟨by decide, fun order => rfl, fun order => rfl, fun order => ?_⟩
  cases order <;> decide

/-- C10: the `switch` of `GetMemoryOrderRepr` covers every one of the six
enumerated `std::memory_order` values with which the program instantiates
its templates (so the `default: __builtin_unreachable();` branch is never
taken for any such call), and the six returned strings are pairwise
distinct (the labels list has no duplicate) and non-empty. -/
theorem getMemoryOrderRepr_total_distinct_nonempty :
    (∀ order : MemoryOrder,
      GetMemoryOrderReprRaw order.val = some (GetMemoryOrderRepr order)) ∧
    (MEMORY_ORDER_LIST.map GetMemoryOrderRepr).Nodup ∧
    (∀ order : MemoryOrder, GetMemoryOrderRepr order ≠ "") ∧
    (∀ order : MemoryOrder, order ∈ MEMORY_ORDER_LIST) := by
  refine ⟨fun o => ?_, by decide, fun o => ?_, fun o => ?_⟩
  · cases o <;> rfl
  · cases o <;> decide
  · cases o <;> decide

theorem eventOutput_print (s : String) : eventOutput (Event.printOut s) = s := rfl

theorem eventOutput_flush : eventOutput Event.flushOut = "" := rfl

theorem eventOutput_spawn (b : BenchmarkVariant) (i : Nat) :
    eventOutput (Event.spawnThread b i) = "" := rfl

theorem eventOutput_join (i : Nat) : eventOutput (Event.joinThread i) = "" := rfl

theorem flatMap_nil_fun {α β : Type _} (l : List α) :
    (l.flatMap fun _ => ([] : List β)) = [] := by
  induction l with
  | nil => rfl
  | cons a l ih => simp [List.flatMap_cons, ih]

theorem runWithThreads_outputChars (b : BenchmarkVariant) (n ms : Nat) :
    outputChars (Benchmark.RunWithThreads b n ms)
      = (GetName b).data ++ ": numThreads = ".data ++ (Nat.repr n).data
        ++ " ... ".data ++ (Nat.repr ms).data ++ " ms".data ++ "\n".data := by
  rw [runWithThreads_eq]
  simp only [outputChars, List.flatMap_append, List.flatMap_cons, List.flatMap_nil,
    List.flatMap_map, eventOutput_print, eventOutput_flush, eventOutput_spawn,
    eventOutput_join, flatMap_nil_fun]
  simp

/-- C8: the output for one (benchmark, thread-count) trial is exactly one
line `"<name>: numThreads = <n> ... <ms> ms"`; the prefix up to and
including `" ... "` is flushed (the first five events) before any worker is
spawned, the `"<ms> ms"` suffix is emitted only by the four trailing events,
after every join; and `main` returns 0 on normal completion. -/
theorem runWithThreads_output_line_and_exit (b : BenchmarkVariant) (n ms : Nat) :
    (outputOf (Benchmark.RunWithThreads b n ms)
      = GetName b ++ ": numThreads = " ++ Nat.repr n ++ " ... "
        ++ Nat.repr ms ++ " ms" ++ "\n") ∧
    ((Benchmark.RunWithThreads b n ms).take 5
      = [Event.printOut (GetName b), Event.printOut ": numThreads = ",
         Event.printOut (Nat.repr n), Event.printOut " ... ", Event.flushOut]) ∧
    (((Benchmark.RunWithThreads b n ms).take 5).countP isSpawnEvent = 0) ∧
    ((Benchmark.RunWithThreads b n ms).drop
        ((Benchmark.RunWithThreads b n ms).length - 4)
      = [Event.printOut (Nat.repr ms), Event.printOut " ms",
         Event.printOut "\n", Event.flushOut]) ∧
    (((Benchmark.RunWithThreads b n ms).take
        ((Benchmark.RunWithThreads b n ms).length - 4)).countP isJoinEvent = n) ∧
    mainExitCode = 0 := by
  have hE := runWithThreads_eq b n ms
  have htake5 : (Benchmark.RunWithThreads b n ms).take 5
      = [Event.printOut (GetName b), Event.printOut ": numThreads = ",
         Event.printOut (Nat.repr n), Event.printOut " ... ", Event.flushOut] := by
    rw [hE]
    simp only [List.append_assoc]
    exact List.take_left' (by simp)
  have hlen4 : (Benchmark.RunWithThreads b n ms).length - 4
      = ([Event.printOut (GetName b), Event.printOut ": numThreads = ",
          Event.printOut (Nat.repr n), Event.printOut " ... ", Event.flushOut]
        ++ (List.range n).map (Event.spawnThread b)
        ++ (List.range n).map Event.joinThread).length := by
    rw [hE]
    simp only [List.length_append, List.length_map, List.length_range,
      List.length_cons, List.length_nil]
    omega
  have hdrop : (Benchmark.RunWithThreads b n ms).drop
      ((Benchmark.RunWithThreads b n ms).length - 4)
      = [Event.printOut (Nat.repr ms), Event.printOut " ms",
         Event.printOut "\n", Event.flushOut] := by
    rw [hlen4, hE, List.drop_left]
  have htake : (Benchmark.RunWithThreads b n ms).take
      ((Benchmark.RunWithThreads b n ms).length - 4)
      = [Event.printOut (GetName b), Event.printOut ": numThreads = ",
          Event.printOut (Nat.repr n), Event.printOut " ... ", Event.flushOut]
        ++ (List.range n).map (Event.spawnThread b)
        ++ (List.range n).map Event.joinThread := by
    rw [hlen4, hE, List.take_left]
  refine ⟨?_, htake5, ?_, hdrop, ?_, rfl⟩
  · apply String.ext
    have hL : (outputOf (Benchmark.RunWithThreads b n ms)).data
        = outputChars (Benchmark.RunWithThreads b n ms) := rfl
    rw [hL, runWithThreads_outputChars]
    simp [String.data_append]
  · rw [htake5]
    simp [isSpawnEvent, List.countP_cons]
  · rw [htake]
    simp [List.countP_append, List.countP_map, Function.comp_def,
      isJoinEvent_spawn, isJoinEvent_join, isJoinEvent, List.countP_cons]

theorem digitChar_ne_newline (n : Nat) : Nat.digitChar n ≠ '\n' := by
  rcases Nat.lt_or_ge n 16 with h | h
  · interval_cases n <;> decide
  · unfold Nat.digitChar
    repeat rw [if_neg (by omega)]
    decide

theorem toDigitsCore_ne_newline :
    ∀ (fuel n : Nat) (ds : List Char), (∀ c ∈ ds, c ≠ '\n') →
      ∀ c ∈ Nat.toDigitsCore 10 fuel n ds, c ≠ '\n' := by
  intro fuel
  induction fuel with
  | zero =>
    intro n ds h c hc
    have hz : Nat.toDigitsCore 10 0 n ds = ds := rfl
    rw [hz] at hc
    exact h c hc
  | succ fuel ih =>
    intro n ds h c hc
    have hstep : Nat.toDigitsCore 10 (fuel + 1) n ds
        = if n / 10 = 0 then Nat.digitChar (n % 10) :: ds
          else Nat.toDigitsCore 10 fuel (n / 10) (Nat.digitChar (n % 10) :: ds) := rfl
    have hcons : ∀ x ∈ Nat.digitChar (n % 10) :: ds, x ≠ '\n' := by
      intro x hx
      rcases List.mem_cons.mp hx with hx | hx
      · rw [hx]; exact digitChar_ne_newline (n % 10)
      · exact h x hx
    rw [hstep] at hc
    by_cases hz : n / 10 = 0
    · rw [if_pos hz] at hc
      exact hcons c hc
    · rw [if_neg hz] at hc
      exact ih (n / 10) (Nat.digitChar (n % 10) :: ds) hcons c hc

theorem repr_data_count_newline (n : Nat) : (Nat.repr n).data.count '\n' = 0 := by
  rw [List.count_eq_zero]
  intro hmem
  have hd : (Nat.repr n).data = Nat.toDigits 10 n := rfl
  rw [hd] at hmem
  exact toDigitsCore_ne_newline (n + 1) n []
    (fun c hc => absurd hc (List.not_mem_nil c)) '\n' hmem rfl

theorem getName_no_newline (b : BenchmarkVariant) :
    (GetName b).data.count '\n' = 0 := by
  cases b with
  | nonAtomicBaseline => decide
  | nonAtomicBenchmark => decide
  | atomicBaseline order => cases order <;> decide
  | atomicBenchmark order => cases order <;> decide

theorem runWithThreads_newlines (b : BenchmarkVariant) (n ms : Nat) :
    (outputChars (Benchmark.RunWithThreads b n ms)).count '\n' = 1 := by
  rw [runWithThreads_outputChars]
  simp only [List.count_append]
  rw [getName_no_newline b, repr_data_count_newline n, repr_data_count_newline ms]
  decide

theorem trialOutput_newlines (b : BenchmarkVariant) (dur : Nat → Nat) :
    ∀ ks : List Nat,
      (outputChars
        ((ks.map fun k => Benchmark.RunWithThreads b k (dur k)).flatten)).count '\n'
        = ks.length := by
  intro ks
  induction ks with
  | nil => simp [outputChars]
  | cons a l ih =>
    rw [List.map_cons, List.flatten_cons, outputChars_append, List.count_append,
      runWithThreads_newlines, ih]
    simp only [List.length_cons]
    omega

theorem run_newlines (b : BenchmarkVariant) (dur : Nat → Nat) (m : Nat) :
    (outputChars ((Benchmark.Run b dur m).flatten)).count '\n' = m := by
  have h : Benchmark.Run b dur m
      = (List.range' 1 m).map fun k => Benchmark.RunWithThreads b k (dur k) :=
    runLoop_eq b dur m 1 m (by omega)
  rw [h, trialOutput_newlines b dur (List.range' 1 m), List.length_range']

theorem run_length_ten (b : BenchmarkVariant) (d : Nat → Nat) :
    (Benchmark.Run b d 10).length = 10 := by
  have h : Benchmark.Run b d 10
      = (List.range' 1 10).map fun k => Benchmark.RunWithThreads b k (d k) :=
    runLoop_eq b d 10 1 10 (by omega)
  rw [h]
  simp [List.length_range']

theorem benchList_newlines (dur : BenchmarkVariant → Nat → Nat) :
    ∀ bs : List BenchmarkVariant,
      (outputChars
        ((bs.flatMap fun b => Benchmark.Run b (dur b) 10).flatten)).count '\n'
        = 10 * bs.length := by
  intro bs
  induction bs with
  | nil => simp [outputChars]
  | cons b bs ih =>
    rw [List.flatMap_cons, List.flatten_append, outputChars_append,
      List.count_append, run_newlines, ih]
    simp
    ring

/-- C9: the maximum thread count of the sweep is hardcoded to 10 (`main`
invokes `Run(10)` on every benchmark), so the program executes 140 trials —
each of the 14 benchmarks once per thread count 1..10, in increasing
order — and prints exactly 140 result lines (one newline per trial). -/
theorem main_sweep_hardcoded_to_ten (dur : BenchmarkVariant → Nat → Nat) :
    (mainTrials dur).length = 140 ∧
    (∀ b : BenchmarkVariant,
      Benchmark.Run b (dur b) 10
        = (List.range' 1 10).map fun k => Benchmark.RunWithThreads b k (dur b k)) ∧
    (mainOutput dur).data.count '\n' = 140 := by
  refine ⟨?_, ?_, ?_⟩
  · have hl : ∀ b : BenchmarkVariant, (Benchmark.Run b (dur b) 10).length = 10 :=
      fun b => run_length_ten b (dur b)
    simp [mainTrials, mainBenchmarks, MEMORY_ORDER_LIST, List.flatMap_cons,
      List.length_append, hl]
  · intro b
    exact runLoop_eq b (dur b) 10 1 10 (by omega)
  · have hL : (mainOutput dur).data = outputChars (mainEvents dur) := rfl
    have h3 : mainEvents dur
        = ((mainBenchmarks.flatMap fun b => Benchmark.Run b (dur b) 10)).flatten := rfl
    rw [hL, h3, benchList_newlines dur mainBenchmarks]
    rfl
